import Mathlib

/-!
Shallow embedding of the UniqueID crate (`src/lib.rs`, `src/utils.rs`).

The crate is a Snowflake-style 64-bit ID generator.  The embedding models:

* i64 / i32 values as `Int`, u64 bit patterns as `Nat` below `2 ^ 64`
  (`u64` takes the two's-complement pattern, `toI64` reads one back);
* the wall clock as a stream `reads : Nat → Int`, where `reads n` is the
  result of the n-th call to `get_timestamp` made by the generator, and a
  cursor `pos` records how many reads have been consumed so far;
* the unbounded busy-wait loop `bind_time` with an explicit fuel bound,
  returning `none` when the fuel runs out (the Rust loop would still be
  spinning at that point);
* `Vec<i64>` as `List Nat` of u64 patterns, with `push` appending at the
  end and `pop` removing the last element, exactly as in Rust.
-/

namespace UniqueID

/-- lib.rs: `const MAX_IDS_PER_MILLISECOND: usize = 4096`. -/
def MAX_IDS_PER_MILLISECOND : Nat := 4096

/-- Two's-complement 64-bit pattern of an integer (`as i64` / `as u64` view). -/
def u64 (x : Int) : Nat := (x % (2 ^ 64 : Int)).toNat

/-- Signed value of a 64-bit pattern (reading a u64 pattern back as i64). -/
def toI64 (u : Nat) : Int :=
  if u % 2 ^ 64 < 2 ^ 63 then ((u % 2 ^ 64 : Nat) : Int)
  else ((u % 2 ^ 64 : Nat) : Int) - 2 ^ 64

/-- utils.rs `get_timestamp`: `SystemTime::now().duration_since(epoch)`
is modelled by its outcome `elapsed` — `none` when the read fails because the
current time is before `epoch` (`unwrap_or(Duration::default())` then yields a
zero duration), `some d` for an elapsed duration of `d` whole milliseconds
(the `u128` returned by `as_millis`).  The final `as i64` is the
two's-complement truncation `toI64`. -/
def get_timestamp (elapsed : Option Nat) : Int :=
  toI64 (elapsed.getD 0)

/-- utils.rs `bind_time`: busy-wait until the clock returns a value strictly
greater than `timestamp`.  Returns that first greater read together with the
clock cursor after it; `none` when `fuel` loop iterations were not enough. -/
def bind_time (timestamp : Int) (reads : Nat → Int) (pos : Nat) :
    Nat → Option (Int × Nat)
  | 0 => none
  | fuel + 1 =>
    let very_last_time := reads pos
    if timestamp < very_last_time then some (very_last_time, pos + 1)
    else bind_time timestamp reads (pos + 1) fuel

/-- lib.rs `IdGenerator`: the `epoch` field is absorbed into the clock
stream, the other four fields are kept with their source names
(`timestamp`, `machine_id`, `server_id` are i64/i32 values, `index` a usize). -/
structure IdGenerator where
  timestamp : Int
  machine_id : Int
  server_id : Int
  index : Nat
deriving Repr, DecidableEq

/-- lib.rs `IdGenerator::with_epochs`: `ts0` is the construction-time
`get_timestamp` read that seeds the `timestamp` field; `index` starts at 0. -/
def with_epochs (machine_id server_id : Int) (ts0 : Int) : IdGenerator :=
  { timestamp := ts0, machine_id := machine_id, server_id := server_id,
    index := 0 }

/-- lib.rs `IdGenerator::generalize_index`: `(index + 1) % MAX_IDS_PER_MILLISECOND`. -/
def generalize_index (index : Nat) : Nat :=
  (index + 1) % MAX_IDS_PER_MILLISECOND

/-- lib.rs `IdGenerator::shift_bits`: the u64 bit pattern of
`timestamp << 22 | (machine_id as i64) << 17 | (server_id as i64) << 12 | index as i64`.
Each `<<` is the wrapping i64 shift, i.e. multiplication of the operand's
64-bit pattern truncated modulo `2 ^ 64`; `|` is bitwise or on the patterns. -/
def shift_bits (timestamp machine_id server_id : Int) (index : Nat) : Nat :=
  (((u64 timestamp * 2 ^ 22) % 2 ^ 64 |||
      (u64 machine_id * 2 ^ 17) % 2 ^ 64) |||
    (u64 server_id * 2 ^ 12) % 2 ^ 64) |||
  index % 2 ^ 64

/-- lib.rs `IdGenerator::generate_id` (the Guarded strategy).  Returns the
updated generator, the new clock cursor and the packed id; `none` when the
busy-wait ran out of fuel. -/
def generate_id (st : IdGenerator) (reads : Nat → Int) (pos fuel : Nat) :
    Option (IdGenerator × Nat × Nat) :=
  let index := generalize_index st.index
  if index = 0 then
    let now := reads pos
    match (if now = st.timestamp then bind_time st.timestamp reads (pos + 1) fuel
           else some (now, pos + 1)) with
    | none => none
    | some (now2, pos2) =>
      let st2 : IdGenerator := { st with timestamp := now2, index := index }
      some (st2, pos2,
        shift_bits st2.timestamp st2.machine_id st2.server_id st2.index)
  else
    let st2 : IdGenerator := { st with index := index }
    some (st2, pos,
      shift_bits st2.timestamp st2.machine_id st2.server_id st2.index)

/-- lib.rs `IdGenerator::generate_id_by_time` (the Time-reconciling
strategy).  One clock read is always consumed; its comparison with the
recorded timestamp selects the branch of the source's `match now.cmp(..)`. -/
def generate_id_by_time (st : IdGenerator) (reads : Nat → Int)
    (pos fuel : Nat) : Option (IdGenerator × Nat × Nat) :=
  let index := generalize_index st.index
  let now := reads pos
  if now = st.timestamp then
    if index = 0 then
      match bind_time now reads (pos + 1) fuel with
      | none => none
      | some (now2, pos2) =>
        let st2 : IdGenerator := { st with timestamp := now2, index := index }
        some (st2, pos2,
          shift_bits st2.timestamp st2.machine_id st2.server_id st2.index)
    else
      let st2 : IdGenerator := { st with index := index }
      some (st2, pos + 1,
        shift_bits st2.timestamp st2.machine_id st2.server_id st2.index)
  else
    let st2 : IdGenerator := { st with timestamp := now, index := 0 }
    some (st2, pos + 1,
      shift_bits st2.timestamp st2.machine_id st2.server_id st2.index)

/-- lib.rs `IdGenerator::generate_id_lazy` (the Lazy strategy): no clock
read; on wraparound the recorded timestamp is incremented by one. -/
def generate_id_lazy (st : IdGenerator) : IdGenerator × Nat :=
  let index := generalize_index st.index
  let st2 : IdGenerator :=
    if index = 0 then { st with timestamp := st.timestamp + 1, index := index }
    else { st with index := index }
  (st2, shift_bits st2.timestamp st2.machine_id st2.server_id st2.index)

/-- Iterate `generate_id` for `n` successive calls, threading state and
clock cursor and collecting the returned ids in call order. -/
def run_id : Nat → IdGenerator → (Nat → Int) → Nat → Nat →
    Option (IdGenerator × Nat × List Nat)
  | 0, st, _, pos, _ => some (st, pos, [])
  | n + 1, st, reads, pos, fuel =>
    match generate_id st reads pos fuel with
    | none => none
    | some (st2, pos2, id) =>
      match run_id n st2 reads pos2 fuel with
      | none => none
      | some (st3, pos3, ids) => some (st3, pos3, id :: ids)

/-- Iterate `generate_id_by_time` for `n` successive calls. -/
def run_by_time : Nat → IdGenerator → (Nat → Int) → Nat → Nat →
    Option (IdGenerator × Nat × List Nat)
  | 0, st, _, pos, _ => some (st, pos, [])
  | n + 1, st, reads, pos, fuel =>
    match generate_id_by_time st reads pos fuel with
    | none => none
    | some (st2, pos2, id) =>
      match run_by_time n st2 reads pos2 fuel with
      | none => none
      | some (st3, pos3, ids) => some (st3, pos3, id :: ids)

/-- Iterate `generate_id_lazy` for `n` successive calls. -/
def run_lazy : Nat → IdGenerator → IdGenerator × List Nat
  | 0, st => (st, [])
  | n + 1, st =>
    let r := generate_id_lazy st
    let rest := run_lazy n r.1
    (rest.1, r.2 :: rest.2)

/-- lib.rs `IdGeneratorBucket`: a generator plus a `Vec<i64>` buffer. -/
structure IdGeneratorBucket where
  id_gen : IdGenerator
  bucket : List Nat
deriving Repr, DecidableEq

/-- The `for` loop of `IdGeneratorBucket::generate_ids`: push `n` lazily
generated ids at the end of the buffer, in generation order. -/
def generate_ids_loop : Nat → IdGenerator → List Nat → IdGenerator × List Nat
  | 0, g, acc => (g, acc)
  | n + 1, g, acc =>
    let r := generate_id_lazy g
    generate_ids_loop n r.1 (acc ++ [r.2])

/-- lib.rs `IdGeneratorBucket::generate_ids`: 4096 lazy generations. -/
def generate_ids (b : IdGeneratorBucket) : IdGeneratorBucket :=
  let r := generate_ids_loop MAX_IDS_PER_MILLISECOND b.id_gen b.bucket
  { id_gen := r.1, bucket := r.2 }

/-- lib.rs `IdGeneratorBucket::get_id`: refill when empty, then
`pop().unwrap()`.  `pop` removes the last pushed element; the `unwrap`
panic on an empty vector is modelled by the `none` case. -/
def get_id (b : IdGeneratorBucket) : Option (Nat × IdGeneratorBucket) :=
  let b2 := if b.bucket.isEmpty then generate_ids b else b
  match b2.bucket.getLast? with
  | none => none
  | some x => some (x, { b2 with bucket := b2.bucket.dropLast })

/-- Packed id of a generator state's current fields; every strategy returns
`packed` of its post-call state. -/
def packed (st : IdGenerator) : Nat :=
  shift_bits st.timestamp st.machine_id st.server_id st.index

/- Decoders.  The source defines no decoding functions; these follow the
spec's decode expressions `(id >> 22) & ((1 << 42) - 1)`, `(id >> 17) & 0x1F`,
`(id >> 12) & 0x1F` and `id & 0xFFF`, read on the id's 64-bit pattern (after
the masking they agree with the i64 arithmetic-shift reading). -/

/-- Timestamp field of a packed id, as decoded by the spec. -/
def decode_timestamp (id : Nat) : Nat := (id >>> 22) &&& (2 ^ 42 - 1)

/-- Machine-id field of a packed id, as decoded by the spec. -/
def decode_machine (id : Nat) : Nat := (id >>> 17) &&& 0x1F

/-- Server-id field of a packed id, as decoded by the spec. -/
def decode_server (id : Nat) : Nat := (id >>> 12) &&& 0x1F

/-- Sequence field of a packed id, as decoded by the spec. -/
def decode_sequence (id : Nat) : Nat := id &&& 0xFFF

/-- Node tags within their 5-bit packed range. -/
def IdsOk (st : IdGenerator) : Prop :=
  0 ≤ st.machine_id ∧ st.machine_id < 32 ∧ 0 ≤ st.server_id ∧ st.server_id < 32

/-- Clock reads stay in the 42-bit timestamp range and never go backwards. -/
def ClockOk (reads : Nat → Int) : Prop :=
  (∀ n, 0 ≤ reads n ∧ reads n < 2 ^ 42) ∧
  ∀ m n, m ≤ n → reads m ≤ reads n

/-- Running invariant of a generator at clock cursor `pos`: the recorded
timestamp is in the 42-bit range, the index below 4096, and the next clock
read is not behind the recorded timestamp. -/
def Inv (st : IdGenerator) (reads : Nat → Int) (pos : Nat) : Prop :=
  0 ≤ st.timestamp ∧ st.timestamp < 2 ^ 42 ∧ st.index < 4096 ∧
  st.timestamp ≤ reads pos

/-! Bit-level facts about the packing. -/

theorem testBit_two_pow_mul_of_lt {i a j : Nat} (hj : j < i) :
    (2 ^ i * a).testBit j = false := by
  have h := Nat.testBit_mul_pow_two_add a (Nat.two_pow_pos i) j
  simpa [hj] using h

theorem lor_mul_two_pow_add {i a b : Nat} (hb : b < 2 ^ i) :
    (a * 2 ^ i) ||| b = a * 2 ^ i + b := by
  apply Nat.eq_of_testBit_eq
  intro j
  have h1 := Nat.testBit_mul_pow_two_add a hb j
  have h0 := Nat.testBit_mul_pow_two_add a (Nat.two_pow_pos i) j
  simp only [add_zero] at h0
  rw [Nat.testBit_lor, mul_comm a (2 ^ i), h1, h0]
  by_cases hj : j < i
  · simp [hj]
  · have hbj : b.testBit j = false :=
      Nat.testBit_lt_two_pow
        (lt_of_lt_of_le hb (Nat.pow_le_pow_right (by norm_num)
          (Nat.le_of_not_lt hj)))
    simp [hj, hbj]

theorem u64_of_range {x : Int} (h0 : 0 ≤ x) (h1 : x < 2 ^ 64) :
    u64 x = x.toNat := by
  unfold u64
  rw [Int.emod_eq_of_lt h0 h1]

/-- Closed form of the packing when every field is inside its bit width:
the bitwise ors of the source act on disjoint bit ranges, so the packed id
is the weighted sum of the fields. -/
theorem shift_bits_eq {t m s : Int} {i : Nat}
    (ht0 : 0 ≤ t) (ht : t < 2 ^ 42) (hm0 : 0 ≤ m) (hm : m < 32)
    (hs0 : 0 ≤ s) (hs : s < 32) (hi : i < 4096) :
    shift_bits t m s i =
      t.toNat * 2 ^ 22 + m.toNat * 2 ^ 17 + s.toNat * 2 ^ 12 + i := by
  unfold shift_bits
  rw [u64_of_range ht0 (by omega), u64_of_range hm0 (by omega),
    u64_of_range hs0 (by omega)]
  have htn : t.toNat < 2 ^ 42 := by omega
  have hmn : m.toNat < 32 := by omega
  have hsn : s.toNat < 32 := by omega
  rw [Nat.mod_eq_of_lt (a := t.toNat * 2 ^ 22) (by omega),
    Nat.mod_eq_of_lt (a := m.toNat * 2 ^ 17) (by omega),
    Nat.mod_eq_of_lt (a := s.toNat * 2 ^ 12) (by omega),
    Nat.mod_eq_of_lt (a := i) (by omega)]
  rw [lor_mul_two_pow_add (i := 22) (by omega)]
  have e2 : t.toNat * 2 ^ 22 + m.toNat * 2 ^ 17 =
      (t.toNat * 2 ^ 5 + m.toNat) * 2 ^ 17 := by ring
  rw [e2, lor_mul_two_pow_add (i := 17) (by omega)]
  have e3 : (t.toNat * 2 ^ 5 + m.toNat) * 2 ^ 17 + s.toNat * 2 ^ 12 =
      (t.toNat * 2 ^ 10 + m.toNat * 2 ^ 5 + s.toNat) * 2 ^ 12 := by ring
  rw [e3, lor_mul_two_pow_add (i := 12) (by omega)]

theorem decode_timestamp_pack {t m s : Int} {i : Nat}
    (ht0 : 0 ≤ t) (ht : t < 2 ^ 42) (hm0 : 0 ≤ m) (hm : m < 32)
    (hs0 : 0 ≤ s) (hs : s < 32) (hi : i < 4096) :
    decode_timestamp (shift_bits t m s i) = t.toNat := by
  rw [shift_bits_eq ht0 ht hm0 hm hs0 hs hi]
  unfold decode_timestamp
  rw [Nat.shiftRight_eq_div_pow, Nat.and_pow_two_sub_one_eq_mod]
  omega

theorem decode_machine_pack {t m s : Int} {i : Nat}
    (ht0 : 0 ≤ t) (ht : t < 2 ^ 42) (hm0 : 0 ≤ m) (hm : m < 32)
    (hs0 : 0 ≤ s) (hs : s < 32) (hi : i < 4096) :
    decode_machine (shift_bits t m s i) = m.toNat := by
  rw [shift_bits_eq ht0 ht hm0 hm hs0 hs hi]
  unfold decode_machine
  have e : (0x1F : Nat) = 2 ^ 5 - 1 := by norm_num
  rw [e, Nat.shiftRight_eq_div_pow, Nat.and_pow_two_sub_one_eq_mod]
  omega

theorem decode_server_pack {t m s : Int} {i : Nat}
    (ht0 : 0 ≤ t) (ht : t < 2 ^ 42) (hm0 : 0 ≤ m) (hm : m < 32)
    (hs0 : 0 ≤ s) (hs : s < 32) (hi : i < 4096) :
    decode_server (shift_bits t m s i) = s.toNat := by
  rw [shift_bits_eq ht0 ht hm0 hm hs0 hs hi]
  unfold decode_server
  have e : (0x1F : Nat) = 2 ^ 5 - 1 := by norm_num
  rw [e, Nat.shiftRight_eq_div_pow, Nat.and_pow_two_sub_one_eq_mod]
  omega

/-- The sequence field decodes back unconditionally: whatever the other
three fields are (even out of range or negative), they only touch bits 12
and above of the pattern. -/
theorem decode_sequence_pack (t m s : Int) {i : Nat} (hi : i < 4096) :
    decode_sequence (shift_bits t m s i) = i := by
  unfold decode_sequence
  have e : (0xFFF : Nat) = 2 ^ 12 - 1 := by norm_num
  rw [e, Nat.and_pow_two_sub_one_eq_mod]
  have hT : (u64 t * 2 ^ 22) % 2 ^ 64 = 2 ^ 22 * (u64 t % 2 ^ 42) := by
    rw [mul_comm (u64 t) (2 ^ 22)]
    have : (2 ^ 64 : Nat) = 2 ^ 22 * 2 ^ 42 := by norm_num
    rw [this, Nat.mul_mod_mul_left]
  have hM : (u64 m * 2 ^ 17) % 2 ^ 64 = 2 ^ 17 * (u64 m % 2 ^ 47) := by
    rw [mul_comm (u64 m) (2 ^ 17)]
    have : (2 ^ 64 : Nat) = 2 ^ 17 * 2 ^ 47 := by norm_num
    rw [this, Nat.mul_mod_mul_left]
  have hS : (u64 s * 2 ^ 12) % 2 ^ 64 = 2 ^ 12 * (u64 s % 2 ^ 52) := by
    rw [mul_comm (u64 s) (2 ^ 12)]
    have : (2 ^ 64 : Nat) = 2 ^ 12 * 2 ^ 52 := by norm_num
    rw [this, Nat.mul_mod_mul_left]
  unfold shift_bits
  rw [hT, hM, hS, Nat.mod_eq_of_lt (a := i) (by omega)]
  apply Nat.eq_of_testBit_eq
  intro j
  rw [Nat.testBit_mod_two_pow]
  by_cases hj : j < 12
  · simp only [decide_eq_true hj, Bool.true_and]
    rw [Nat.testBit_lor, Nat.testBit_lor, Nat.testBit_lor,
      testBit_two_pow_mul_of_lt (by omega),
      testBit_two_pow_mul_of_lt (by omega),
      testBit_two_pow_mul_of_lt (by omega)]
    simp
  · have hij : i.testBit j = false :=
      Nat.testBit_lt_two_pow
        (lt_of_lt_of_le (show i < 2 ^ 12 by omega)
          (Nat.pow_le_pow_right (by norm_num) (Nat.le_of_not_lt hj)))
    simp [hj, hij]

/-! Control-flow characterizations of the three strategies. -/

theorem generalize_index_lt (i : Nat) : generalize_index i < 4096 := by
  unfold generalize_index MAX_IDS_PER_MILLISECOND
  omega

theorem generalize_index_of_ne {i : Nat} (hi : i < 4096)
    (h : generalize_index i ≠ 0) : generalize_index i = i + 1 := by
  unfold generalize_index MAX_IDS_PER_MILLISECOND at h ⊢
  omega

theorem bind_time_some_spec {t : Int} {reads : Nat → Int} :
    ∀ {fuel pos : Nat} {v : Int} {pos2 : Nat},
      bind_time t reads pos fuel = some (v, pos2) →
      t < v ∧ ∃ k, pos2 = pos + k + 1 ∧ v = reads (pos + k) ∧
        ∀ j < k, reads (pos + j) ≤ t := by
  intro fuel
  induction fuel with
  | zero => intro pos v pos2 h; simp [bind_time] at h
  | succ n ih =>
    intro pos v pos2 h
    simp only [bind_time] at h
    by_cases hc : t < reads pos
    · rw [if_pos hc] at h
      simp only [Option.some.injEq, Prod.mk.injEq] at h
      obtain ⟨rfl, rfl⟩ := h
      exact ⟨hc, 0, by omega, by simp, by omega⟩
    · rw [if_neg hc] at h
      obtain ⟨hv, k, hpos2, hval, hlow⟩ := ih h
      refine ⟨hv, k + 1, by omega, ?_, ?_⟩
      · rw [show pos + (k + 1) = pos + 1 + k by omega]; exact hval
      · intro j hj
        cases j with
        | zero => simpa using Int.not_lt.mp hc
        | succ j' =>
          rw [show pos + (j' + 1) = pos + 1 + j' by omega]
          exact hlow j' (by omega)

/-- Case analysis of one Guarded call: no wrap leaves the timestamp and the
clock alone; a wrap re-reads the clock once and either adopts a differing
read directly or busy-waits past an equal one. -/
theorem generate_id_eq_cases {st : IdGenerator} {reads : Nat → Int}
    {pos fuel : Nat} {st2 : IdGenerator} {pos2 id : Nat}
    (h : generate_id st reads pos fuel = some (st2, pos2, id)) :
    id = packed st2 ∧ st2.machine_id = st.machine_id ∧
      st2.server_id = st.server_id ∧
    ((generalize_index st.index ≠ 0 ∧
        st2 = { st with index := generalize_index st.index } ∧ pos2 = pos) ∨
      (generalize_index st.index = 0 ∧ reads pos ≠ st.timestamp ∧
        st2 = { st with timestamp := reads pos, index := 0 } ∧
        pos2 = pos + 1) ∨
      (generalize_index st.index = 0 ∧ reads pos = st.timestamp ∧
        bind_time st.timestamp reads (pos + 1) fuel =
          some (st2.timestamp, pos2) ∧
        st2 = { st with timestamp := st2.timestamp, index := 0 })) := by
  simp only [generate_id] at h
  by_cases h0 : generalize_index st.index = 0
  · rw [if_pos h0] at h
    by_cases he : reads pos = st.timestamp
    · rw [if_pos he] at h
      obtain ⟨p, hbt⟩ : ∃ p, bind_time st.timestamp reads (pos + 1) fuel = p :=
        ⟨_, rfl⟩
      rw [hbt] at h
      cases p with
      | none => simp at h
      | some r =>
        obtain ⟨now2, p2⟩ := r
        simp only [h0, Option.some.injEq, Prod.mk.injEq] at h
        obtain ⟨rfl, rfl, rfl⟩ := h
        exact ⟨rfl, rfl, rfl, Or.inr (Or.inr ⟨h0, he, hbt, rfl⟩)⟩
    · rw [if_neg he] at h
      simp only [h0, Option.some.injEq, Prod.mk.injEq] at h
      obtain ⟨rfl, rfl, rfl⟩ := h
      exact ⟨rfl, rfl, rfl, Or.inr (Or.inl ⟨h0, he, rfl, rfl⟩)⟩
  · rw [if_neg h0] at h
    simp only [Option.some.injEq, Prod.mk.injEq] at h
    obtain ⟨rfl, rfl, rfl⟩ := h
    exact ⟨rfl, rfl, rfl, Or.inl ⟨h0, rfl, rfl⟩⟩

/-- Case analysis of one Time-reconciling call: a differing read (forward or
backward) is adopted with the sequence reset; an equal read keeps the
timestamp unless the sequence wrapped, in which case the call busy-waits. -/
theorem generate_id_by_time_eq_cases {st : IdGenerator} {reads : Nat → Int}
    {pos fuel : Nat} {st2 : IdGenerator} {pos2 id : Nat}
    (h : generate_id_by_time st reads pos fuel = some (st2, pos2, id)) :
    id = packed st2 ∧ st2.machine_id = st.machine_id ∧
      st2.server_id = st.server_id ∧
    ((reads pos ≠ st.timestamp ∧
        st2 = { st with timestamp := reads pos, index := 0 } ∧
        pos2 = pos + 1) ∨
      (reads pos = st.timestamp ∧ generalize_index st.index ≠ 0 ∧
        st2 = { st with index := generalize_index st.index } ∧
        pos2 = pos + 1) ∨
      (reads pos = st.timestamp ∧ generalize_index st.index = 0 ∧
        bind_time (reads pos) reads (pos + 1) fuel =
          some (st2.timestamp, pos2) ∧
        st2 = { st with timestamp := st2.timestamp, index := 0 })) := by
  simp only [generate_id_by_time] at h
  by_cases he : reads pos = st.timestamp
  · rw [if_pos he] at h
    by_cases h0 : generalize_index st.index = 0
    · rw [if_pos h0] at h
      obtain ⟨p, hbt⟩ : ∃ p, bind_time (reads pos) reads (pos + 1) fuel = p :=
        ⟨_, rfl⟩
      rw [hbt] at h
      cases p with
      | none => simp at h
      | some r =>
        obtain ⟨now2, p2⟩ := r
        simp only [h0, Option.some.injEq, Prod.mk.injEq] at h
        obtain ⟨rfl, rfl, rfl⟩ := h
        exact ⟨rfl, rfl, rfl, Or.inr (Or.inr ⟨he, h0, hbt, rfl⟩)⟩
    · rw [if_neg h0] at h
      simp only [Option.some.injEq, Prod.mk.injEq] at h
      obtain ⟨rfl, rfl, rfl⟩ := h
      exact ⟨rfl, rfl, rfl, Or.inr (Or.inl ⟨he, h0, rfl, rfl⟩)⟩
  · rw [if_neg he] at h
    simp only [Option.some.injEq, Prod.mk.injEq] at h
    obtain ⟨rfl, rfl, rfl⟩ := h
    exact ⟨rfl, rfl, rfl, Or.inl ⟨he, rfl, rfl⟩⟩

/-- Case analysis of one Lazy call: a wrap increments the timestamp by one,
otherwise the state only advances its index. -/
theorem generate_id_lazy_eq_cases (st : IdGenerator) :
    (generate_id_lazy st).2 = packed (generate_id_lazy st).1 ∧
    (generate_id_lazy st).1.machine_id = st.machine_id ∧
    (generate_id_lazy st).1.server_id = st.server_id ∧
    ((generalize_index st.index ≠ 0 ∧
        (generate_id_lazy st).1 =
          { st with index := generalize_index st.index }) ∨
      (generalize_index st.index = 0 ∧
        (generate_id_lazy st).1 =
          { st with timestamp := st.timestamp + 1, index := 0 })) := by
  simp only [generate_id_lazy]
  by_cases h0 : generalize_index st.index = 0
  · rw [if_pos h0]
    exact ⟨rfl, rfl, rfl, Or.inr ⟨h0, by rw [h0]⟩⟩
  · rw [if_neg h0]
    exact ⟨rfl, rfl, rfl, Or.inl ⟨h0, rfl⟩⟩

/-! Ordering of packed ids and preservation of the running invariant. -/

theorem packed_lt_packed {st st2 : IdGenerator}
    (hm : st2.machine_id = st.machine_id) (hs : st2.server_id = st.server_id)
    (hok : IdsOk st)
    (h1 : 0 ≤ st.timestamp) (h2 : st.timestamp < 2 ^ 42)
    (hi1 : st.index < 4096)
    (h3 : 0 ≤ st2.timestamp) (h4 : st2.timestamp < 2 ^ 42)
    (hi2 : st2.index < 4096)
    (hlt : st.timestamp < st2.timestamp ∨
      (st.timestamp = st2.timestamp ∧ st.index < st2.index)) :
    packed st < packed st2 := by
  obtain ⟨hm0, hm1, hs0, hs1⟩ := hok
  unfold packed
  rw [hm, hs]
  rw [shift_bits_eq h1 h2 hm0 hm1 hs0 hs1 hi1,
    shift_bits_eq h3 h4 hm0 hm1 hs0 hs1 hi2]
  omega

/-- One Guarded call under a well-behaved clock strictly increases the
packed id and preserves the invariant. -/
theorem generate_id_step {st : IdGenerator} {reads : Nat → Int}
    {pos fuel : Nat} {st2 : IdGenerator} {pos2 id : Nat}
    (hc : ClockOk reads) (hok : IdsOk st) (hinv : Inv st reads pos)
    (h : generate_id st reads pos fuel = some (st2, pos2, id)) :
    id = packed st2 ∧ packed st < packed st2 ∧ IdsOk st2 ∧
      Inv st2 reads pos2 := by
  obtain ⟨hid, hm, hs, hcase⟩ := generate_id_eq_cases h
  obtain ⟨ht0, ht1, hi1, hle⟩ := hinv
  obtain ⟨hbound, hmono⟩ := hc
  have hok2 : IdsOk st2 := by
    obtain ⟨a, b, c, d⟩ := hok
    exact ⟨hm ▸ a, hm ▸ b, hs ▸ c, hs ▸ d⟩
  have hgl := generalize_index_lt st.index
  rcases hcase with ⟨hne, hst2, hpos2⟩ | ⟨h0, hne, hst2, hpos2⟩ |
    ⟨h0, heq, hbt, hst2⟩
  · have hidx := generalize_index_of_ne hi1 hne
    have e1 : st2.timestamp = st.timestamp := by rw [hst2]
    have e2 : st2.index = generalize_index st.index := by rw [hst2]
    refine ⟨hid, packed_lt_packed hm hs hok ht0 ht1 hi1 (by omega) (by omega)
      (by omega) (Or.inr ⟨by omega, by omega⟩), hok2, ?_⟩
    refine ⟨by omega, by omega, by omega, ?_⟩
    rw [e1, hpos2]
    exact hle
  · have hgt : st.timestamp < reads pos := lt_of_le_of_ne hle (Ne.symm hne)
    have e1 : st2.timestamp = reads pos := by rw [hst2]
    have e2 : st2.index = 0 := by rw [hst2]
    have hb := hbound pos
    refine ⟨hid, packed_lt_packed hm hs hok ht0 ht1 hi1 (by omega) (by omega)
      (by omega) (Or.inl (by omega)), hok2, ?_⟩
    refine ⟨by omega, by omega, by omega, ?_⟩
    rw [e1, hpos2]
    exact hmono pos (pos + 1) (by omega)
  · obtain ⟨hgt, k, hp2, hval, _⟩ := bind_time_some_spec hbt
    have e2 : st2.index = 0 := by rw [hst2]
    have hb := hbound (pos + 1 + k)
    rw [← hval] at hb
    refine ⟨hid, packed_lt_packed hm hs hok ht0 ht1 hi1 (by omega) (by omega)
      (by omega) (Or.inl (by omega)), hok2, ?_⟩
    refine ⟨by omega, by omega, by omega, ?_⟩
    rw [hval]
    exact hmono _ _ (by omega)

/-- One Time-reconciling call under a well-behaved clock strictly increases
the packed id and preserves the invariant. -/
theorem generate_id_by_time_step {st : IdGenerator} {reads : Nat → Int}
    {pos fuel : Nat} {st2 : IdGenerator} {pos2 id : Nat}
    (hc : ClockOk reads) (hok : IdsOk st) (hinv : Inv st reads pos)
    (h : generate_id_by_time st reads pos fuel = some (st2, pos2, id)) :
    id = packed st2 ∧ packed st < packed st2 ∧ IdsOk st2 ∧
      Inv st2 reads pos2 := by
  obtain ⟨hid, hm, hs, hcase⟩ := generate_id_by_time_eq_cases h
  obtain ⟨ht0, ht1, hi1, hle⟩ := hinv
  obtain ⟨hbound, hmono⟩ := hc
  have hok2 : IdsOk st2 := by
    obtain ⟨a, b, c, d⟩ := hok
    exact ⟨hm ▸ a, hm ▸ b, hs ▸ c, hs ▸ d⟩
  have hgl := generalize_index_lt st.index
  rcases hcase with ⟨hne, hst2, hpos2⟩ | ⟨heq, hne, hst2, hpos2⟩ |
    ⟨heq, h0, hbt, hst2⟩
  · have hgt : st.timestamp < reads pos := lt_of_le_of_ne hle (Ne.symm hne)
    have e1 : st2.timestamp = reads pos := by rw [hst2]
    have e2 : st2.index = 0 := by rw [hst2]
    have hb := hbound pos
    refine ⟨hid, packed_lt_packed hm hs hok ht0 ht1 hi1 (by omega) (by omega)
      (by omega) (Or.inl (by omega)), hok2, ?_⟩
    refine ⟨by omega, by omega, by omega, ?_⟩
    rw [e1, hpos2]
    exact hmono pos (pos + 1) (by omega)
  · have hidx := generalize_index_of_ne hi1 hne
    have e1 : st2.timestamp = st.timestamp := by rw [hst2]
    have e2 : st2.index = generalize_index st.index := by rw [hst2]
    refine ⟨hid, packed_lt_packed hm hs hok ht0 ht1 hi1 (by omega) (by omega)
      (by omega) (Or.inr ⟨by omega, by omega⟩), hok2, ?_⟩
    refine ⟨by omega, by omega, by omega, ?_⟩
    rw [e1, hpos2, ← heq]
    exact hmono pos (pos + 1) (by omega)
  · rw [heq] at hbt
    obtain ⟨hgt, k, hp2, hval, _⟩ := bind_time_some_spec hbt
    have e2 : st2.index = 0 := by rw [hst2]
    have hb := hbound (pos + 1 + k)
    rw [← hval] at hb
    refine ⟨hid, packed_lt_packed hm hs hok ht0 ht1 hi1 (by omega) (by omega)
      (by omega) (Or.inl (by omega)), hok2, ?_⟩
    refine ⟨by omega, by omega, by omega, ?_⟩
    rw [hval]
    exact hmono _ _ (by omega)

/-- One Lazy call strictly increases the packed id as long as the timestamp
has room to grow inside its 42-bit field. -/
theorem generate_id_lazy_step {st : IdGenerator}
    (hok : IdsOk st) (ht0 : 0 ≤ st.timestamp)
    (ht1 : st.timestamp + 1 < 2 ^ 42) (hi1 : st.index < 4096) :
    (generate_id_lazy st).2 = packed (generate_id_lazy st).1 ∧
      packed st < packed (generate_id_lazy st).1 ∧
      IdsOk (generate_id_lazy st).1 ∧
      0 ≤ (generate_id_lazy st).1.timestamp ∧
      (generate_id_lazy st).1.timestamp ≤ st.timestamp + 1 ∧
      (generate_id_lazy st).1.index < 4096 := by
  obtain ⟨hid, hm, hs, hcase⟩ := generate_id_lazy_eq_cases st
  have hok2 : IdsOk (generate_id_lazy st).1 := by
    obtain ⟨a, b, c, d⟩ := hok
    exact ⟨hm ▸ a, hm ▸ b, hs ▸ c, hs ▸ d⟩
  have hgl := generalize_index_lt st.index
  rcases hcase with ⟨hne, hst2⟩ | ⟨h0, hst2⟩
  · have hidx := generalize_index_of_ne hi1 hne
    have e1 : (generate_id_lazy st).1.timestamp = st.timestamp := by rw [hst2]
    have e2 : (generate_id_lazy st).1.index = generalize_index st.index := by
      rw [hst2]
    exact ⟨hid, packed_lt_packed hm hs hok ht0 (by omega) hi1 (by omega)
      (by omega) (by omega) (Or.inr ⟨by omega, by omega⟩), hok2,
      by omega, by omega, by omega⟩
  · have e1 : (generate_id_lazy st).1.timestamp = st.timestamp + 1 := by
      rw [hst2]
    have e2 : (generate_id_lazy st).1.index = 0 := by rw [hst2]
    exact ⟨hid, packed_lt_packed hm hs hok ht0 (by omega) hi1 (by omega)
      (by omega) (by omega) (Or.inl (by omega)), hok2,
      by omega, by omega, by omega⟩

/-! Multi-call runs: strict ordering of the returned id sequences. -/

theorem chain_lt_nodup {l : List Nat} (h : List.Chain' (· < ·) l) :
    l.Nodup := by
  have hp : l.Pairwise (· < ·) := List.chain'_iff_pairwise.mp h
  exact hp.imp fun hab => Nat.ne_of_lt hab

theorem run_id_chain {reads : Nat → Int} (hc : ClockOk reads) :
    ∀ (n : Nat) (st : IdGenerator) (pos fuel : Nat) (st3 : IdGenerator)
      (pos3 : Nat) (ids : List Nat),
      IdsOk st → Inv st reads pos →
      run_id n st reads pos fuel = some (st3, pos3, ids) →
      List.Chain' (· < ·) (packed st :: ids) := by
  intro n
  induction n with
  | zero =>
    intro st pos fuel st3 pos3 ids _ _ h
    simp only [run_id, Option.some.injEq, Prod.mk.injEq] at h
    obtain ⟨rfl, rfl, rfl⟩ := h
    simp
  | succ n ih =>
    intro st pos fuel st3 pos3 ids hok hinv h
    simp only [run_id] at h
    obtain ⟨p, hp⟩ : ∃ p, generate_id st reads pos fuel = p := ⟨_, rfl⟩
    rw [hp] at h
    cases p with
    | none => simp at h
    | some r =>
      obtain ⟨st1, pos1, id1⟩ := r
      dsimp only at h
      obtain ⟨hid, hlt, hok1, hinv1⟩ := generate_id_step hc hok hinv hp
      obtain ⟨q, hq⟩ : ∃ q, run_id n st1 reads pos1 fuel = q := ⟨_, rfl⟩
      rw [hq] at h
      cases q with
      | none => simp at h
      | some r2 =>
        obtain ⟨st4, pos4, ids4⟩ := r2
        simp only [Option.some.injEq, Prod.mk.injEq] at h
        obtain ⟨rfl, rfl, rfl⟩ := h
        have hch := ih st1 pos1 fuel _ _ _ hok1 hinv1 hq
        rw [hid]
        exact List.chain'_cons.mpr ⟨hlt, hch⟩

theorem run_by_time_chain {reads : Nat → Int} (hc : ClockOk reads) :
    ∀ (n : Nat) (st : IdGenerator) (pos fuel : Nat) (st3 : IdGenerator)
      (pos3 : Nat) (ids : List Nat),
      IdsOk st → Inv st reads pos →
      run_by_time n st reads pos fuel = some (st3, pos3, ids) →
      List.Chain' (· < ·) (packed st :: ids) := by
  intro n
  induction n with
  | zero =>
    intro st pos fuel st3 pos3 ids _ _ h
    simp only [run_by_time, Option.some.injEq, Prod.mk.injEq] at h
    obtain ⟨rfl, rfl, rfl⟩ := h
    simp
  | succ n ih =>
    intro st pos fuel st3 pos3 ids hok hinv h
    simp only [run_by_time] at h
    obtain ⟨p, hp⟩ : ∃ p, generate_id_by_time st reads pos fuel = p := ⟨_, rfl⟩
    rw [hp] at h
    cases p with
    | none => simp at h
    | some r =>
      obtain ⟨st1, pos1, id1⟩ := r
      dsimp only at h
      obtain ⟨hid, hlt, hok1, hinv1⟩ := generate_id_by_time_step hc hok hinv hp
      obtain ⟨q, hq⟩ : ∃ q, run_by_time n st1 reads pos1 fuel = q := ⟨_, rfl⟩
      rw [hq] at h
      cases q with
      | none => simp at h
      | some r2 =>
        obtain ⟨st4, pos4, ids4⟩ := r2
        simp only [Option.some.injEq, Prod.mk.injEq] at h
        obtain ⟨rfl, rfl, rfl⟩ := h
        have hch := ih st1 pos1 fuel _ _ _ hok1 hinv1 hq
        rw [hid]
        exact List.chain'_cons.mpr ⟨hlt, hch⟩

theorem run_lazy_chain :
    ∀ (n : Nat) (st : IdGenerator), IdsOk st → 0 ≤ st.timestamp →
      st.timestamp + n < 2 ^ 42 → st.index < 4096 →
      List.Chain' (· < ·) (packed st :: (run_lazy n st).2) := by
  intro n
  induction n with
  | zero => intro st _ _ _ _; simp [run_lazy]
  | succ n ih =>
    intro st hok ht0 ht1 hi
    have hstep := generate_id_lazy_step hok ht0 (by push_cast at ht1 ⊢; omega) hi
    obtain ⟨hid, hlt, hok1, h01, hle1, hidx1⟩ := hstep
    simp only [run_lazy]
    rw [hid]
    refine List.chain'_cons.mpr ⟨hlt, ?_⟩
    exact ih (generate_id_lazy st).1 hok1 h01 (by push_cast at ht1 ⊢; omega)
      hidx1

/-! Closed forms of the Lazy strategy iterates. -/

/-- One Lazy call in terms of index arithmetic. -/
theorem generate_id_lazy_fields (st : IdGenerator) (hi : st.index < 4096) :
    (generate_id_lazy st).1.timestamp =
        st.timestamp + (((st.index + 1) / 4096 : Nat) : Int) ∧
      (generate_id_lazy st).1.index = (st.index + 1) % 4096 ∧
      (generate_id_lazy st).1.machine_id = st.machine_id ∧
      (generate_id_lazy st).1.server_id = st.server_id := by
  obtain ⟨_, hm, hs, hcase⟩ := generate_id_lazy_eq_cases st
  rcases hcase with ⟨hne, hst2⟩ | ⟨h0, hst2⟩
  · have hidx := generalize_index_of_ne hi hne
    have e1 : (generate_id_lazy st).1.timestamp = st.timestamp := by rw [hst2]
    have e2 : (generate_id_lazy st).1.index = generalize_index st.index := by
      rw [hst2]
    have hne2 : generalize_index st.index ≠ 0 := hne
    unfold generalize_index MAX_IDS_PER_MILLISECOND at hidx hne2
    refine ⟨?_, ?_, hm, hs⟩
    · rw [e1]; push_cast; omega
    · rw [e2]; unfold generalize_index MAX_IDS_PER_MILLISECOND; omega
  · have e1 : (generate_id_lazy st).1.timestamp = st.timestamp + 1 := by
      rw [hst2]
    have e2 : (generate_id_lazy st).1.index = 0 := by rw [hst2]
    have h02 : generalize_index st.index = 0 := h0
    unfold generalize_index MAX_IDS_PER_MILLISECOND at h02
    refine ⟨?_, ?_, hm, hs⟩
    · rw [e1]; push_cast; omega
    · rw [e2]; omega

/-- State after `n` Lazy calls: the index advances modulo 4096 and the
timestamp gains one for each wraparound. -/
theorem run_lazy_state (n : Nat) :
    ∀ st : IdGenerator, st.index < 4096 →
      (run_lazy n st).1.timestamp =
          st.timestamp + (((st.index + n) / 4096 : Nat) : Int) ∧
        (run_lazy n st).1.index = (st.index + n) % 4096 ∧
        (run_lazy n st).1.machine_id = st.machine_id ∧
        (run_lazy n st).1.server_id = st.server_id := by
  induction n with
  | zero =>
    intro st hi
    refine ⟨?_, ?_, rfl, rfl⟩
    · show st.timestamp = st.timestamp + (((st.index + 0) / 4096 : Nat) : Int)
      rw [Nat.div_eq_of_lt (by omega)]
      simp
    · show st.index = (st.index + 0) % 4096
      omega
  | succ n ih =>
    intro st hi
    obtain ⟨e1, e2, e3, e4⟩ := generate_id_lazy_fields st hi
    have hidx1 : (generate_id_lazy st).1.index < 4096 := by omega
    obtain ⟨f1, f2, f3, f4⟩ := ih (generate_id_lazy st).1 hidx1
    simp only [run_lazy]
    refine ⟨?_, ?_, by rw [f3, e3], by rw [f4, e4]⟩
    · rw [f1, e1, e2]; push_cast; omega
    · rw [f2, e2]; omega

/-- Id returned by the (k+1)-st of `n` Lazy calls, in closed form. -/
theorem run_lazy_getD (n : Nat) :
    ∀ st : IdGenerator, st.index < 4096 → ∀ k, k < n →
      (run_lazy n st).2.getD k 0 =
        shift_bits (st.timestamp + (((st.index + k + 1) / 4096 : Nat) : Int))
          st.machine_id st.server_id ((st.index + k + 1) % 4096) := by
  induction n with
  | zero => intro st _ k hk; omega
  | succ n ih =>
    intro st hi k hk
    obtain ⟨e1, e2, e3, e4⟩ := generate_id_lazy_fields st hi
    have hidx1 : (generate_id_lazy st).1.index < 4096 := by omega
    obtain ⟨hid, _, _, _⟩ := generate_id_lazy_eq_cases st
    cases k with
    | zero =>
      simp only [run_lazy, List.getD_cons_zero]
      rw [hid]
      unfold packed
      rw [e1, e2, e3, e4]
    | succ k =>
      simp only [run_lazy, List.getD_cons_succ]
      rw [ih (generate_id_lazy st).1 hidx1 k (by omega)]
      rw [e1, e2, e3, e4]
      have a1 : st.timestamp + (((st.index + 1) / 4096 : Nat) : Int) +
          ((((st.index + 1) % 4096 + k + 1) / 4096 : Nat) : Int) =
          st.timestamp + (((st.index + (k + 1) + 1) / 4096 : Nat) : Int) := by
        push_cast
        omega
      have a2 : ((st.index + 1) % 4096 + k + 1) % 4096 =
          (st.index + (k + 1) + 1) % 4096 := by omega
      rw [a1, a2]

/-! The bucket. -/

theorem generate_ids_loop_eq (n : Nat) :
    ∀ (g : IdGenerator) (acc : List Nat),
      generate_ids_loop n g acc = ((run_lazy n g).1, acc ++ (run_lazy n g).2) := by
  induction n with
  | zero => intro g acc; simp [generate_ids_loop, run_lazy]
  | succ n ih =>
    intro g acc
    simp only [generate_ids_loop, run_lazy]
    rw [ih]
    simp

theorem run_lazy_length (n : Nat) :
    ∀ st : IdGenerator, (run_lazy n st).2.length = n := by
  induction n with
  | zero => intro st; simp [run_lazy]
  | succ n ih => intro st; simp only [run_lazy, List.length_cons, ih]

theorem generate_ids_eq (b : IdGeneratorBucket) :
    generate_ids b =
      { id_gen := (run_lazy 4096 b.id_gen).1,
        bucket := b.bucket ++ (run_lazy 4096 b.id_gen).2 } := by
  unfold generate_ids MAX_IDS_PER_MILLISECOND
  rw [generate_ids_loop_eq]

theorem get_id_of_empty {b : IdGeneratorBucket} (hb : b.bucket = []) :
    (get_id b).isSome = true ∧
      (get_id b).map Prod.fst = (run_lazy 4096 b.id_gen).2.getLast? := by
  have hlen := run_lazy_length 4096 b.id_gen
  have hne : (run_lazy 4096 b.id_gen).2 ≠ [] := by
    intro hnil
    rw [hnil] at hlen
    simp at hlen
  have hemp : b.bucket.isEmpty = true := by rw [hb]; rfl
  have hbk : (generate_ids b).bucket = (run_lazy 4096 b.id_gen).2 := by
    rw [generate_ids_eq, hb]
    rfl
  unfold get_id
  rw [if_pos hemp]
  dsimp only
  rw [hbk]
  obtain ⟨y, hy⟩ := Option.isSome_iff_exists.mp (List.getLast?_isSome.mpr hne)
  rw [hy]
  exact ⟨rfl, rfl⟩

theorem get_id_of_nonempty {b : IdGeneratorBucket} (hb : ¬ b.bucket = []) :
    (get_id b).isSome = true ∧
      (get_id b).map Prod.fst = b.bucket.getLast? := by
  have hemp : b.bucket.isEmpty = false := by
    cases hl : b.bucket with
    | nil => exact absurd hl hb
    | cons a l => rfl
  unfold get_id
  rw [hemp]
  simp only [Bool.false_eq_true, if_false]
  obtain ⟨y, hy⟩ := Option.isSome_iff_exists.mp (List.getLast?_isSome.mpr hb)
  rw [hy]
  exact ⟨rfl, rfl⟩

/-! Fail-soft behaviour of the clock source. -/

theorem get_timestamp_none : get_timestamp none = 0 := by decide

theorem get_timestamp_some_of_lt {d : Nat} (hd : d < 2 ^ 63) :
    get_timestamp (some d) = (d : Int) := by
  unfold get_timestamp toI64
  have h1 : d % 2 ^ 64 = d := Nat.mod_eq_of_lt (by omega)
  rw [show (some d).getD 0 = d from rfl, h1, if_pos hd]

/-! Concrete inputs used to exercise the theorems. -/

/-- A generator freshly constructed while the clock read 5. -/
def cexGen : IdGenerator := with_epochs 1 2 5

/-- A clock trace that jumps backwards once: 5, 3, 5, 5, ... -/
def cexReads : Nat → Int := fun n => (([5, 3, 5, 5] : List Int).getD n 0)

/-- A well-behaved clock: non-decreasing and bounded by 4096. -/
def wClock (n : Nat) : Int := Int.ofNat (min n 4096)

theorem wClock_ok : ClockOk wClock := by
  constructor
  · intro n
    unfold wClock
    refine ⟨Int.ofNat_nonneg _, ?_⟩
    calc Int.ofNat (min n 4096) ≤ Int.ofNat 4096 :=
          Int.ofNat_le.mpr (Nat.min_le_right n 4096)
      _ < 2 ^ 42 := by decide
  · intro m n h
    unfold wClock
    exact Int.ofNat_le.mpr (min_le_min h (le_refl 4096))

/-- A clock trace that stalls at 5 for two reads and then moves to 7. -/
def bReads : Nat → Int := fun n => (([5, 5, 7] : List Int).getD n 0)

/-- A clock trace that jumped forward to 9. -/
def jReads : Nat → Int := fun n => (([9] : List Int).getD n 0)

/-- C1 counterexample: under the Time-reconciling strategy a backward clock
jump makes the 4th call return the same packed value as the 1st call, so N
successive calls need not be pairwise distinct. -/
theorem byTime_repeats_on_clock_jump_back :
    (run_by_time 4 cexGen cexReads 0 1).map (fun r => r.2.2) =
      some [21110785, 12722176, 21110784, 21110785] ∧
    ¬ ([21110785, 12722176, 21110784, 21110785] : List Nat).Nodup :=
  ⟨by decide, by decide⟩

/-- C1 (amended): provided the clock reads are non-decreasing, stay in the
42-bit range and never lag the recorded timestamp, and the node tags are in
their 5-bit range, then N successive calls to any one generation strategy
return pairwise distinct packed values (for the Lazy strategy the recorded
timestamp additionally needs N steps of headroom below 2 ^ 42). -/
theorem distinct_ids_of_monotone_clock
    (reads : Nat → Int) (st : IdGenerator) (pos fuel n : Nat)
    (hc : ClockOk reads) (hok : IdsOk st) (hinv : Inv st reads pos) :
    (∀ st2 pos2 ids, run_id n st reads pos fuel = some (st2, pos2, ids) →
      ids.Nodup) ∧
    (∀ st2 pos2 ids, run_by_time n st reads pos fuel = some (st2, pos2, ids) →
      ids.Nodup) ∧
    (st.timestamp + (n : Int) < 2 ^ 42 → (run_lazy n st).2.Nodup) := by
  refine ⟨?_, ?_, ?_⟩
  · intro st2 pos2 ids h
    exact chain_lt_nodup
      (run_id_chain hc n st pos fuel st2 pos2 ids hok hinv h).tail
  · intro st2 pos2 ids h
    exact chain_lt_nodup
      (run_by_time_chain hc n st pos fuel st2 pos2 ids hok hinv h).tail
  · intro hlt
    exact chain_lt_nodup
      (run_lazy_chain n st hok hinv.1 hlt hinv.2.2.1).tail

/-- C1 witness: the amended theorem applied to a fresh generator, a
well-behaved clock and two Lazy calls. -/
theorem distinct_ids_of_monotone_clock_witness :
    (run_lazy 2 (with_epochs 1 2 0)).2.Nodup :=
  (distinct_ids_of_monotone_clock wClock (with_epochs 1 2 0) 0 1 2 wClock_ok
    ⟨by decide, by decide, by decide, by decide⟩
    ⟨by decide, by decide, by decide, by decide⟩).2.2 (by decide)

/-- C2 counterexample: under the Time-reconciling strategy a backward clock
jump makes the 2nd call return a smaller value than the 1st call. -/
theorem byTime_decreases_on_clock_jump_back :
    (run_by_time 2 cexGen cexReads 0 1).map (fun r => r.2.2) =
      some [21110785, 12722176] ∧
    ¬ ((21110785 : Nat) < 12722176) :=
  ⟨by decide, by decide⟩

/-- C2 (amended): provided the clock reads are non-decreasing, stay in the
42-bit range and never lag the recorded timestamp, and the node tags are in
their 5-bit range, the Guarded and Time-reconciling strategies return
strictly increasing packed values in call order. -/
theorem increasing_ids_of_monotone_clock
    (reads : Nat → Int) (st : IdGenerator) (pos fuel n : Nat)
    (hc : ClockOk reads) (hok : IdsOk st) (hinv : Inv st reads pos) :
    (∀ st2 pos2 ids, run_id n st reads pos fuel = some (st2, pos2, ids) →
      List.Chain' (· < ·) ids) ∧
    (∀ st2 pos2 ids, run_by_time n st reads pos fuel = some (st2, pos2, ids) →
      List.Chain' (· < ·) ids) := by
  refine ⟨?_, ?_⟩
  · intro st2 pos2 ids h
    exact (run_id_chain hc n st pos fuel st2 pos2 ids hok hinv h).tail
  · intro st2 pos2 ids h
    exact (run_by_time_chain hc n st pos fuel st2 pos2 ids hok hinv h).tail

/-- C2 witness: two Guarded calls on a fresh generator under a well-behaved
clock return increasing ids. -/
theorem increasing_ids_of_monotone_clock_witness :
    List.Chain' (· < ·) ([139265, 139266] : List Nat) :=
  (increasing_ids_of_monotone_clock wClock (with_epochs 1 2 0) 0 1 2 wClock_ok
    ⟨by decide, by decide, by decide, by decide⟩
    ⟨by decide, by decide, by decide, by decide⟩).1
    (IdGenerator.mk 0 1 2 2) 0 [139265, 139266] (by decide)

/-- C3: every identifier returned by any of the three strategies equals
`shift_bits` applied to the post-call state's timestamp, machine id, server
id and sequence index. -/
theorem id_eq_shift_bits_of_post_state
    (st : IdGenerator) (reads : Nat → Int) (pos fuel : Nat) :
    (∀ st2 pos2 id, generate_id st reads pos fuel = some (st2, pos2, id) →
      id = shift_bits st2.timestamp st2.machine_id st2.server_id st2.index) ∧
    (∀ st2 pos2 id,
      generate_id_by_time st reads pos fuel = some (st2, pos2, id) →
      id = shift_bits st2.timestamp st2.machine_id st2.server_id st2.index) ∧
    (generate_id_lazy st).2 =
      shift_bits (generate_id_lazy st).1.timestamp
        (generate_id_lazy st).1.machine_id (generate_id_lazy st).1.server_id
        (generate_id_lazy st).1.index := by
  refine ⟨?_, ?_, ?_⟩
  · intro st2 pos2 id h
    exact (generate_id_eq_cases h).1
  · intro st2 pos2 id h
    exact (generate_id_by_time_eq_cases h).1
  · exact (generate_id_lazy_eq_cases st).1

/-- C3 witness: the first Guarded call of a fresh generator packs the
post-call fields (timestamp 5, ids 1 and 2, sequence 1). -/
theorem id_eq_shift_bits_of_post_state_witness :
    (21110785 : Nat) = shift_bits 5 1 2 1 :=
  (id_eq_shift_bits_of_post_state cexGen cexReads 0 1).1
    (IdGenerator.mk 5 1 2 1) 0 21110785 (by decide)

/-- C4 counterexample: decoding does not recover a timestamp of `2 ^ 42`
(the packing wraps), nor a negative machine id even though it is below 32. -/
theorem decode_fails_outside_field_ranges :
    ((decode_timestamp (shift_bits (2 ^ 42) 1 2 3) : Int) ≠ (2 ^ 42 : Int)) ∧
    ((-1 : Int) < 32 ∧
      (decode_machine (shift_bits 5 (-1) 2 3) : Int) ≠ (-1 : Int)) :=
  ⟨by decide, by decide, by decide⟩

/-- C4 (amended): the sequence field always decodes back and lies in
[0, 4095]; the timestamp decodes back when it lies in [0, 2 ^ 42), and the
machine and server ids decode back when they lie in [0, 32). -/
theorem decode_round_trip (t m s : Int) (i : Nat) (hi : i < 4096) :
    decode_sequence (shift_bits t m s i) = i ∧
    decode_sequence (shift_bits t m s i) ≤ 4095 ∧
    (0 ≤ t → t < 2 ^ 42 → 0 ≤ m → m < 32 → 0 ≤ s → s < 32 →
      ((decode_timestamp (shift_bits t m s i) : Int) = t ∧
        (decode_machine (shift_bits t m s i) : Int) = m ∧
        (decode_server (shift_bits t m s i) : Int) = s)) := by
  refine ⟨decode_sequence_pack t m s hi, ?_, ?_⟩
  · rw [decode_sequence_pack t m s hi]
    omega
  · intro ht0 ht1 hm0 hm1 hs0 hs1
    refine ⟨?_, ?_, ?_⟩
    · rw [decode_timestamp_pack ht0 ht1 hm0 hm1 hs0 hs1 hi]
      omega
    · rw [decode_machine_pack ht0 ht1 hm0 hm1 hs0 hs1 hi]
      omega
    · rw [decode_server_pack ht0 ht1 hm0 hm1 hs0 hs1 hi]
      omega

/-- C4 witness: round trip at timestamp 5, machine 1, server 2, sequence 3. -/
theorem decode_round_trip_witness :
    decode_sequence (shift_bits 5 1 2 3) = 3 ∧
    decode_sequence (shift_bits 5 1 2 3) ≤ 4095 ∧
    (0 ≤ (5 : Int) → (5 : Int) < 2 ^ 42 → 0 ≤ (1 : Int) → (1 : Int) < 32 →
      0 ≤ (2 : Int) → (2 : Int) < 32 →
      ((decode_timestamp (shift_bits 5 1 2 3) : Int) = 5 ∧
        (decode_machine (shift_bits 5 1 2 3) : Int) = 1 ∧
        (decode_server (shift_bits 5 1 2 3) : Int) = 2)) :=
  decode_round_trip 5 1 2 3 (by decide)

/-- C5: in the Guarded strategy the clock is re-read exactly when the
advanced sequence wrapped to 0; an equal re-read triggers a busy-wait that
adopts the first strictly greater read, a differing re-read is adopted
directly, and without a wrap the recorded timestamp and clock are left
untouched. -/
theorem guarded_wrap_policy (st : IdGenerator) (reads : Nat → Int)
    (pos fuel : Nat) (st2 : IdGenerator) (pos2 id : Nat)
    (h : generate_id st reads pos fuel = some (st2, pos2, id)) :
    (generalize_index st.index ≠ 0 →
      st2.timestamp = st.timestamp ∧ st2.index = generalize_index st.index ∧
        pos2 = pos) ∧
    (generalize_index st.index = 0 ↔ pos < pos2) ∧
    (generalize_index st.index = 0 → reads pos ≠ st.timestamp →
      st2.timestamp = reads pos ∧ st2.index = 0 ∧ pos2 = pos + 1) ∧
    (generalize_index st.index = 0 → reads pos = st.timestamp →
      st2.index = 0 ∧ st.timestamp < st2.timestamp ∧
      ∃ k, pos2 = pos + 1 + k + 1 ∧ st2.timestamp = reads (pos + 1 + k) ∧
        ∀ j < k, reads (pos + 1 + j) ≤ st.timestamp) := by
  obtain ⟨_, _, _, hcase⟩ := generate_id_eq_cases h
  rcases hcase with ⟨hne, hst2, hpos2⟩ | ⟨h0, hne, hst2, hpos2⟩ |
    ⟨h0, heq, hbt, hst2⟩
  · refine ⟨fun _ => ⟨by rw [hst2], by rw [hst2], hpos2⟩, ?_, ?_, ?_⟩
    · constructor
      · intro h0
        exact absurd h0 hne
      · intro hp
        rw [hpos2] at hp
        exact absurd hp (lt_irrefl pos)
    · intro h0 _
      exact absurd h0 hne
    · intro h0 _
      exact absurd h0 hne
  · refine ⟨fun hne2 => absurd h0 hne2, ?_, ?_, ?_⟩
    · exact ⟨fun _ => by omega, fun _ => h0⟩
    · intro _ _
      exact ⟨by rw [hst2], by rw [hst2], hpos2⟩
    · intro _ heq
      exact absurd heq hne
  · obtain ⟨hgt, k, hp2, hval, hlow⟩ := bind_time_some_spec hbt
    refine ⟨fun hne2 => absurd h0 hne2, ?_, ?_, ?_⟩
    · exact ⟨fun _ => by omega, fun _ => h0⟩
    · intro _ hne2
      exact absurd heq hne2
    · intro _ _
      exact ⟨by rw [hst2], hgt, k, hp2, hval, hlow⟩

/-- C5 witness: a generator at sequence 4095 wraps; the clock stalls at the
recorded timestamp 5 for one extra read and the busy-wait adopts the first
strictly greater read 7. -/
theorem guarded_wrap_policy_witness :
    (IdGenerator.mk 7 1 2 0).index = 0 ∧
    (IdGenerator.mk 5 1 2 4095).timestamp < (IdGenerator.mk 7 1 2 0).timestamp ∧
    ∃ k, 3 = 0 + 1 + k + 1 ∧
      (IdGenerator.mk 7 1 2 0).timestamp = bReads (0 + 1 + k) ∧
      ∀ j < k, bReads (0 + 1 + j) ≤ (IdGenerator.mk 5 1 2 4095).timestamp :=
  (guarded_wrap_policy (IdGenerator.mk 5 1 2 4095) bReads 0 5
    (IdGenerator.mk 7 1 2 0) 3 29499392 (by decide)).2.2.2 (by decide)
    (by decide)

/-- C6: in the Time-reconciling strategy a clock read differing from the
recorded timestamp (forward or backward) is adopted with the sequence reset
to 0; an equal read keeps the recorded timestamp unless the sequence
wrapped, in which case the call busy-waits for and adopts the first strictly
greater read. -/
theorem time_reconciling_policy (st : IdGenerator) (reads : Nat → Int)
    (pos fuel : Nat) (st2 : IdGenerator) (pos2 id : Nat)
    (h : generate_id_by_time st reads pos fuel = some (st2, pos2, id)) :
    (reads pos ≠ st.timestamp →
      st2.timestamp = reads pos ∧ st2.index = 0 ∧ pos2 = pos + 1) ∧
    (reads pos = st.timestamp → generalize_index st.index ≠ 0 →
      st2.timestamp = st.timestamp ∧ st2.index = generalize_index st.index ∧
        pos2 = pos + 1) ∧
    (reads pos = st.timestamp → generalize_index st.index = 0 →
      st2.index = 0 ∧ st.timestamp < st2.timestamp ∧
      ∃ k, pos2 = pos + 1 + k + 1 ∧ st2.timestamp = reads (pos + 1 + k) ∧
        ∀ j < k, reads (pos + 1 + j) ≤ st.timestamp) := by
  obtain ⟨_, _, _, hcase⟩ := generate_id_by_time_eq_cases h
  rcases hcase with ⟨hne, hst2, hpos2⟩ | ⟨heq, hne, hst2, hpos2⟩ |
    ⟨heq, h0, hbt, hst2⟩
  · refine ⟨fun _ => ⟨by rw [hst2], by rw [hst2], hpos2⟩, ?_, ?_⟩
    · intro heq _
      exact absurd heq hne
    · intro heq _
      exact absurd heq hne
  · refine ⟨fun hne2 => absurd heq hne2, ?_, ?_⟩
    · intro _ _
      exact ⟨by rw [hst2], by rw [hst2], hpos2⟩
    · intro _ h0
      exact absurd h0 hne
  · rw [heq] at hbt
    obtain ⟨hgt, k, hp2, hval, hlow⟩ := bind_time_some_spec hbt
    refine ⟨fun hne2 => absurd heq hne2, ?_, ?_⟩
    · intro _ hne2
      exact absurd h0 hne2
    · intro _ _
      exact ⟨by rw [hst2], hgt, k, hp2, hval, hlow⟩

/-- C6 witness: the recorded timestamp is 5 but the clock reads 9, so the
fresh value is adopted and the sequence is reset to 0. -/
theorem time_reconciling_policy_witness :
    (IdGenerator.mk 9 1 2 0).timestamp = jReads 0 ∧
    (IdGenerator.mk 9 1 2 0).index = 0 ∧
    (1 : Nat) = 0 + 1 :=
  (time_reconciling_policy cexGen jReads 0 1 (IdGenerator.mk 9 1 2 0) 1
    37888000 (by decide)).1 (by decide)

/-- C7 counterexample: the sequence is advanced before packing, so the
timestamp already increments on the 4096th Lazy call; the 4097th call's
timestamp component is not strictly greater than the 4096th's. -/
theorem lazy_4097th_not_greater_than_4096th :
    decode_timestamp ((run_lazy 4097 (with_epochs 1 2 0)).2.getD 4096 0) ≤
      decode_timestamp ((run_lazy 4097 (with_epochs 1 2 0)).2.getD 4095 0) := by
  rw [run_lazy_getD 4097 (with_epochs 1 2 0) (by decide) 4096 (by decide),
    run_lazy_getD 4097 (with_epochs 1 2 0) (by decide) 4095 (by decide)]
  decide

/-- C7 (amended): from a fresh state (sequence 0, in-range fields) the 4096
Lazy ids are pairwise distinct; the timestamp increments on the 4096th call
(the wrap), so the 4097th call's timestamp component is strictly greater
than those of the first 4095 ids and equal to the 4096th's. -/
theorem lazy_wrap_boundary (st : IdGenerator) (h0 : st.index = 0)
    (hok : IdsOk st) (ht0 : 0 ≤ st.timestamp)
    (ht1 : st.timestamp + 4097 < 2 ^ 42) :
    (run_lazy 4096 st).2.Nodup ∧
    (∀ k, k < 4095 →
      decode_timestamp ((run_lazy 4097 st).2.getD k 0) <
        decode_timestamp ((run_lazy 4097 st).2.getD 4096 0)) ∧
    decode_timestamp ((run_lazy 4097 st).2.getD 4095 0) =
      decode_timestamp ((run_lazy 4097 st).2.getD 4096 0) := by
  obtain ⟨hm0, hm1, hs0, hs1⟩ := hok
  have hdec : ∀ k, k < 4097 →
      decode_timestamp ((run_lazy 4097 st).2.getD k 0) =
        (st.timestamp + (((k + 1) / 4096 : Nat) : Int)).toNat := by
    intro k hk
    have e : st.index + k + 1 = k + 1 := by omega
    rw [run_lazy_getD 4097 st (by omega) k hk, e]
    exact decode_timestamp_pack (by omega) (by omega) hm0 hm1 hs0 hs1
      (by omega)
  refine ⟨?_, ?_, ?_⟩
  · have hch := run_lazy_chain 4096 st ⟨hm0, hm1, hs0, hs1⟩ ht0
      (by push_cast; omega) (by omega)
    exact chain_lt_nodup hch.tail
  · intro k hk
    rw [hdec k (by omega), hdec 4096 (by decide)]
    omega
  · rw [hdec 4095 (by decide), hdec 4096 (by decide)]

/-- C7 witness: on a fresh generator with timestamp 0 the 4096th and 4097th
Lazy ids carry the same timestamp component. -/
theorem lazy_wrap_boundary_witness :
    decode_timestamp ((run_lazy 4097 (with_epochs 1 2 0)).2.getD 4095 0) =
      decode_timestamp ((run_lazy 4097 (with_epochs 1 2 0)).2.getD 4096 0) :=
  (lazy_wrap_boundary (with_epochs 1 2 0) rfl
    ⟨by decide, by decide, by decide, by decide⟩ (by decide) (by decide)).2.2

/-- C8: popping from the bucket never fails: the returned option is always
`some`; on an empty buffer the refill performs exactly 4096 Lazy
generations, pushes them in generation order, and the pop returns the
most-recently-generated entry. -/
theorem bucket_get_id_total (b : IdGeneratorBucket) :
    (get_id b).isSome = true ∧
    (b.bucket = [] →
      generate_ids b =
        { id_gen := (run_lazy 4096 b.id_gen).1,
          bucket := (run_lazy 4096 b.id_gen).2 } ∧
      (run_lazy 4096 b.id_gen).2.length = 4096 ∧
      (get_id b).map Prod.fst = (run_lazy 4096 b.id_gen).2.getLast?) := by
  by_cases hb : b.bucket = []
  · obtain ⟨h1, h2⟩ := get_id_of_empty hb
    refine ⟨h1, fun _ => ⟨?_, run_lazy_length 4096 b.id_gen, h2⟩⟩
    rw [generate_ids_eq, hb]
    rfl
  · exact ⟨(get_id_of_nonempty hb).1, fun h => absurd h hb⟩

/-- C8 witness: on a freshly constructed empty bucket, popping succeeds and
the refill produced 4096 entries. -/
theorem bucket_get_id_total_witness :
    (get_id (IdGeneratorBucket.mk (with_epochs 1 2 0) [])).isSome = true ∧
    (run_lazy 4096
      (IdGeneratorBucket.mk (with_epochs 1 2 0) []).id_gen).2.length = 4096 :=
  ⟨(bucket_get_id_total (IdGeneratorBucket.mk (with_epochs 1 2 0) [])).1,
    ((bucket_get_id_total (IdGeneratorBucket.mk (with_epochs 1 2 0) [])).2
      rfl).2.1⟩

/-- C9 counterexample: an elapsed duration of `2 ^ 63` milliseconds makes
the `as i64` cast in the clock source go negative. -/
theorem get_timestamp_negative_on_huge_elapsed :
    get_timestamp (some (2 ^ 63)) < 0 := by decide

/-- C9 (amended): the clock source never fails the caller: a failed clock
read yields 0, and whenever the elapsed duration is below `2 ^ 63`
milliseconds the result is that duration, hence non-negative. -/
theorem get_timestamp_fail_soft :
    get_timestamp none = 0 ∧
    (∀ d : Nat, d < 2 ^ 63 →
      get_timestamp (some d) = (d : Int) ∧ 0 ≤ get_timestamp (some d)) := by
  refine ⟨get_timestamp_none, fun d hd => ?_⟩
  rw [get_timestamp_some_of_lt hd]
  exact ⟨rfl, by omega⟩

/-- C9 witness: the clock source at a failed read and at 7 elapsed
milliseconds. -/
theorem get_timestamp_fail_soft_witness :
    get_timestamp none = 0 ∧
    (get_timestamp (some 7) = (7 : Int) ∧ 0 ≤ get_timestamp (some 7)) :=
  ⟨get_timestamp_fail_soft.1, get_timestamp_fail_soft.2 7 (by decide)⟩

/-- C10: a freshly constructed generator has sequence index 0; the first
call to a strategy that does not reset the sequence (Guarded, Lazy, or
Time-reconciling when the clock still equals the seed) returns an id whose
sequence field is 1 and keeps the seeded timestamp; under the Lazy strategy
sequence value 0 first appears on the 4096th call, where the timestamp
changes, so the first timestamp's batch holds at most 4095 ids. -/
theorem first_call_sequence_one (m s t : Int) (reads : Nat → Int)
    (pos fuel : Nat) :
    (with_epochs m s t).index = 0 ∧
    (∀ st2 pos2 id,
      generate_id (with_epochs m s t) reads pos fuel = some (st2, pos2, id) →
      decode_sequence id = 1 ∧ st2.timestamp = t) ∧
    decode_sequence (generate_id_lazy (with_epochs m s t)).2 = 1 ∧
    (generate_id_lazy (with_epochs m s t)).1.timestamp = t ∧
    (reads pos = t → ∀ st2 pos2 id,
      generate_id_by_time (with_epochs m s t) reads pos fuel =
        some (st2, pos2, id) →
      decode_sequence id = 1 ∧ st2.timestamp = t) ∧
    (∀ k, k < 4095 →
      decode_sequence ((run_lazy 4096 (with_epochs m s t)).2.getD k 0) =
        k + 1) ∧
    decode_sequence ((run_lazy 4096 (with_epochs m s t)).2.getD 4095 0) = 0 ∧
    (run_lazy 4095 (with_epochs m s t)).1.timestamp = t ∧
    (run_lazy 4096 (with_epochs m s t)).1.timestamp = t + 1 := by
  have e0 : (with_epochs m s t).index = 0 := rfl
  have et : (with_epochs m s t).timestamp = t := rfl
  have hgi : generalize_index (with_epochs m s t).index = 1 := rfl
  refine ⟨e0, ?_, ?_, ?_, ?_, ?_, ?_, ?_, ?_⟩
  · intro st2 pos2 id h
    obtain ⟨hid, _, _, hcase⟩ := generate_id_eq_cases h
    rcases hcase with ⟨hne, hst2, _⟩ | ⟨h0, _, _, _⟩ | ⟨h0, _, _, _⟩
    · have e2 : st2.index = 1 := by rw [hst2]; exact hgi
      have e1 : st2.timestamp = t := by rw [hst2]; rfl
      refine ⟨?_, e1⟩
      rw [hid]
      unfold packed
      rw [decode_sequence_pack st2.timestamp st2.machine_id st2.server_id
        (i := st2.index) (by omega)]
      exact e2
    · rw [hgi] at h0
      exact absurd h0 (by decide)
    · rw [hgi] at h0
      exact absurd h0 (by decide)
  · obtain ⟨hid, _, _, hcase⟩ := generate_id_lazy_eq_cases (with_epochs m s t)
    rcases hcase with ⟨hne, hst2⟩ | ⟨h0, _⟩
    · have e2 : (generate_id_lazy (with_epochs m s t)).1.index = 1 := by
        rw [hst2]; exact hgi
      rw [hid]
      unfold packed
      rw [decode_sequence_pack _ _ _ (i := _) (by omega)]
      exact e2
    · rw [hgi] at h0
      exact absurd h0 (by decide)
  · obtain ⟨_, _, _, hcase⟩ := generate_id_lazy_eq_cases (with_epochs m s t)
    rcases hcase with ⟨hne, hst2⟩ | ⟨h0, _⟩
    · rw [hst2]; rfl
    · rw [hgi] at h0
      exact absurd h0 (by decide)
  · intro heq st2 pos2 id h
    obtain ⟨hid, _, _, hcase⟩ := generate_id_by_time_eq_cases h
    rcases hcase with ⟨hne, _, _⟩ | ⟨_, hne, hst2, _⟩ | ⟨_, h0, _, _⟩
    · exact absurd heq hne
    · have e2 : st2.index = 1 := by rw [hst2]; exact hgi
      have e1 : st2.timestamp = t := by rw [hst2]; rfl
      refine ⟨?_, e1⟩
      rw [hid]
      unfold packed
      rw [decode_sequence_pack st2.timestamp st2.machine_id st2.server_id
        (i := st2.index) (by omega)]
      exact e2
    · rw [hgi] at h0
      exact absurd h0 (by decide)
  · intro k hk
    rw [run_lazy_getD 4096 (with_epochs m s t) (by omega) k (by omega)]
    rw [decode_sequence_pack _ _ _ (by omega)]
    omega
  · rw [run_lazy_getD 4096 (with_epochs m s t) (by omega) 4095 (by omega)]
    rw [decode_sequence_pack _ _ _ (by omega)]
    omega
  · have hst := (run_lazy_state 4095 (with_epochs m s t) (by omega)).1
    rw [hst, et]
    rw [e0]
    omega
  · have hst := (run_lazy_state 4096 (with_epochs m s t) (by omega)).1
    rw [hst, et]
    rw [e0]
    omega

/-- C10 witness: the instantiation at machine 1, server 2, seed timestamp 5. -/
theorem first_call_sequence_one_witness :
    (with_epochs 1 2 5).index = 0 ∧
    decode_sequence (generate_id_lazy (with_epochs 1 2 5)).2 = 1 ∧
    decode_sequence ((run_lazy 4096 (with_epochs 1 2 5)).2.getD 0 0) = 0 + 1 :=
  ⟨(first_call_sequence_one 1 2 5 cexReads 0 1).1,
    (first_call_sequence_one 1 2 5 cexReads 0 1).2.2.1,
    (first_call_sequence_one 1 2 5 cexReads 0 1).2.2.2.2.2.1 0 (by decide)⟩

end UniqueID
